import Mathlib

/-!
Verification of the edge-processing utilities in src/utils.py of the
PoSe-Path repository.

Embedding conventions.  A (2, m) integer edge tensor is embedded as a
list of its m columns, each column being a pair (source, target) of
integers.  A (m,) label tensor is a list of naturals.  Numpy boolean
masks are lists of booleans, and mask.nonzero() is the ascending list of
positions holding true.  The process-wide numpy random source is made
explicit: the uniform variates backing np.random.binomial are passed in
as an oracle, and the sampler itself (including its validation of the
probability argument, which raises ValueError on p < 0 or p > 1) is
modelled by np_binomial_mask.  torch.cat, which raises a RuntimeError on
an empty list of tensors, is modelled by torch_cat.  Fallible code
returns Except.
-/

namespace PoSePath

/-- Column of a (2, m) edge tensor: (source endpoint, target endpoint). -/
abbrev Edge := ℤ × ℤ

/-- Row swap applied to a single column: (u, v) becomes (v, u). -/
def swapEdge (e : Edge) : Edge := (e.2, e.1)

/-- Ascending positions, counted from offset s, of the elements of a list
satisfying a boolean predicate.  This models mask.nonzero() in numpy: the
indices of the true entries in increasing order. -/
def idxFilter (p : α → Bool) : List α → ℕ → List ℕ
  | [], _ => []
  | x :: xs, s => if p x then s :: idxFilter p xs (s + 1) else idxFilter p xs (s + 1)

/-- Integer-array fancy indexing idx[:, sel] along the column axis: the
columns of l at the given positions, in the order the positions are
listed.  Positions outside the tensor would raise in torch; they cannot
occur in the code paths below, and are skipped here. -/
def select (l : List α) (idxs : List ℕ) : List α := idxs.filterMap (fun j => l[j]?)

/-- Lines 11-12 of utils.py: mask = edge_index[0] > edge_index[1] and
keep_set = mask.nonzero().view(-1). -/
def keepSet (E : List Edge) : List ℕ := idxFilter (fun e => decide (e.2 < e.1)) E 0

/-- Function remove_bidirection of utils.py, branch with edge_type = None:
keep exactly the columns whose source index exceeds their target index. -/
def remove_bidirection (E : List Edge) : List Edge := select E (keepSet E)

/-- Function remove_bidirection of utils.py, branch with a label tensor:
edge_index[:, keep_set] and edge_type[keep_set].  The label indexing
raises an IndexError when a kept column position is out of bounds for the
label tensor; no length comparison between the two inputs is made. -/
def remove_bidirection_t (E : List Edge) (t : List ℕ) :
    Except String (List Edge × List ℕ) :=
  if (keepSet E).all (fun j => decide (j < t.length)) then
    Except.ok (select E (keepSet E), select t (keepSet E))
  else Except.error "IndexError"

/-- Function to_bidirection of utils.py, branch with edge_type = None.
Lines 21-22 clone the input and write the swapped rows of the original
into the clone, so the result concatenates the original columns with the
row-swapped columns. -/
def to_bidirection (E : List Edge) : List Edge := E ++ E.map swapEdge

/-- Function to_bidirection of utils.py, branch with a label tensor: the
label tensor is concatenated with itself, with no length validation
against the edge tensor. -/
def to_bidirection_t (E : List Edge) (t : List ℕ) : List Edge × List ℕ :=
  (E ++ E.map swapEdge, t ++ t)

/-- Line 47 of utils.py: train_set = train_mask.nonzero()[0], the
ascending positions of the 1 entries of the Bernoulli mask. -/
def trainSet (m : List Bool) : List ℕ := idxFilter (fun b => b) m 0

/-- Lines 46-48 of utils.py: test_mask = 1 - train_mask and
test_set = test_mask.nonzero()[0], the ascending positions of the 0
entries of the Bernoulli mask. -/
def testSet (m : List Bool) : List ℕ := idxFilter (fun b => !b) m 0

/-- Accumulator recursion of get_range_list: s is the running offset. -/
def rangeGo (s : ℕ) : List (List α) → List (ℕ × ℕ)
  | [] => []
  | x :: xs => (s, s + x.length) :: rangeGo (s + x.length) xs

/-- Function get_range_list of utils.py: the half-open (start, end)
column interval of each per-type list inside their concatenation. -/
def get_range_list (l : List (List α)) : List (ℕ × ℕ) := rangeGo 0 l

/-- Offset of the segment of the k-th list inside the concatenation of a
list of lists: the sum of the lengths of the earlier lists. -/
def offTo (l : List (List α)) (k : ℕ) : ℕ := ((l.map List.length).take k).sum

/-- Slice of a flat list described by a half-open (start, end) interval,
as used by consumers of the range tables. -/
def listSeg (xs : List α) (r : ℕ × ℕ) : List α := (xs.drop r.1).take (r.2 - r.1)

/-- Model of np.random.binomial(1, p, n) from the numpy legacy random
module, called on line 45 of utils.py.  numpy validates the probability
argument and raises ValueError with message p < 0, respectively p > 1,
when it lies outside [0, 1]; otherwise every draw is Bernoulli(p),
modelled as u < p for a uniform variate u in [0, 1) taken from the
supplied list. -/
def np_binomial_mask (p : ℚ) (us : List ℚ) : Except String (List Bool) :=
  if p < 0 then Except.error "p < 0"
  else if 1 < p then Except.error "p > 1"
  else Except.ok (us.map (fun u => decide (u < p)))

/-- Bernoulli mask drawn for type i over n columns, when the probability
argument p has passed validation: draw j of type i is the uniform variate
u i j compared against p. -/
def npMask (p : ℚ) (u : ℕ → ℕ → ℚ) (i n : ℕ) : List Bool :=
  ((List.range n).map (u i)).map (fun q => decide (q < p))

/-- Per-type intermediate data of the loop of process_edges (lines
44-54): the selected train and test columns of the type, and the label
runs, whose lengths are already doubled for the later
bidirectionalization. -/
structure TypeOut where
  tr : List Edge
  te : List Edge
  trL : List ℕ
  teL : List ℕ
deriving Repr, DecidableEq, Inhabited

/-- Body of one iteration of the loop of process_edges for type j with
columns E and Bernoulli mask m. -/
def typeOutOf (j : ℕ) (E : List Edge) (m : List Bool) : TypeOut :=
  { tr := select E (trainSet m)
    te := select E (testSet m)
    trL := List.replicate (2 * (trainSet m).length) j
    teL := List.replicate (2 * (testSet m).length) j }

/-- The loop of process_edges with the random draws abstracted to a mask
oracle msk, where msk i n is the mask drawn for type i over n columns. -/
def pureLoop (msk : ℕ → ℕ → List Bool) : ℕ → List (List Edge) → List TypeOut
  | _, [] => []
  | i, E :: rest => typeOutOf i E (msk i E.length) :: pureLoop msk (i + 1) rest

/-- The loop of process_edges as executed: type i draws its Bernoulli
mask through np_binomial_mask, which can raise on an invalid probability
argument; the error propagates out of the loop. -/
def processLoop (p : ℚ) (u : ℕ → ℕ → ℚ) : ℕ → List (List Edge) → Except String (List TypeOut)
  | _, [] => Except.ok []
  | i, E :: rest =>
    match np_binomial_mask p ((List.range E.length).map (u i)) with
    | Except.error e => Except.error e
    | Except.ok m =>
      match processLoop p u (i + 1) rest with
      | Except.error e => Except.error e
      | Except.ok outs => Except.ok (typeOutOf i E m :: outs)

/-- The six-tuple returned by process_edges. -/
structure SplitOut where
  train_edge_idx : List Edge
  train_et : List ℕ
  train_range : List (ℕ × ℕ)
  test_edge_idx : List Edge
  test_et : List ℕ
  test_range : List (ℕ × ℕ)
deriving Repr, DecidableEq, Inhabited

/-- Value of lines 56-68 of utils.py when every concatenation succeeds,
that is, when at least one type is present: bidirectionalize each
per-type split, build the range tables over the bidirectionalized
per-type lists, and concatenate edges and labels along the column axis.
The concatenation itself is torch.cat, modelled with its failure case by
torch_cat below; this record is the six-tuple the successful calls
return. -/
def assemble (outs : List TypeOut) : SplitOut :=
  { train_edge_idx := (outs.map (fun o => to_bidirection o.tr)).flatten
    train_et := (outs.map (fun o => o.trL)).flatten
    train_range := get_range_list (outs.map (fun o => to_bidirection o.tr))
    test_edge_idx := (outs.map (fun o => to_bidirection o.te)).flatten
    test_et := (outs.map (fun o => o.teL)).flatten
    test_range := get_range_list (outs.map (fun o => to_bidirection o.te)) }

/-- Model of torch.cat on a list of tensors, concatenating along the
column axis: torch.cat raises a RuntimeError when handed an empty list of
tensors and otherwise concatenates the columns in order. -/
def torch_cat (l : List (List α)) : Except String (List α) :=
  match l with
  | [] => Except.error "expected a non-empty list of Tensors"
  | _ :: _ => Except.ok l.flatten

/-- Lines 59-68 of utils.py after the loop: the range tables are built
first and never fail, then the four torch.cat calls of lines 62, 63, 65
and 66 run in source order, so the cat of the train edge lists on line 62
is the first to raise when the per-type list is empty; when all succeed
the result is exactly assemble outs. -/
def catAssemble (outs : List TypeOut) : Except String SplitOut :=
  match torch_cat (outs.map (fun o => to_bidirection o.tr)),
      torch_cat (outs.map (fun o => to_bidirection o.te)),
      torch_cat (outs.map (fun o => o.trL)),
      torch_cat (outs.map (fun o => o.teL)) with
  | Except.ok tre, Except.ok tee, Except.ok trl, Except.ok tel =>
    Except.ok
      { train_edge_idx := tre
        train_et := trl
        train_range := get_range_list (outs.map (fun o => to_bidirection o.tr))
        test_edge_idx := tee
        test_et := tel
        test_range := get_range_list (outs.map (fun o => to_bidirection o.te)) }
  | Except.error e, _, _, _ => Except.error e
  | _, Except.error e, _, _ => Except.error e
  | _, _, Except.error e, _ => Except.error e
  | _, _, _, Except.error e => Except.error e

/-- Function process_edges of utils.py.  The process-wide random state is
made explicit as the oracle u of variates: u i j backs the j-th draw of
the mask of type i.  A ValueError of the sampler propagates out of the
loop; on an empty input list the loop draws nothing, p is never
validated, and the first torch.cat raises its RuntimeError. -/
def process_edges (raw : List (List Edge)) (p : ℚ) (u : ℕ → ℕ → ℚ) :
    Except String SplitOut :=
  match processLoop p u 0 raw with
  | Except.error e => Except.error e
  | Except.ok outs => catAssemble outs

/-- The output of process_edges when every Bernoulli draw comes up 0:
every column of every type goes to the test split. -/
def allTestOut (raw : List (List Edge)) : SplitOut :=
  assemble (pureLoop (fun _ n => List.replicate n false) 0 raw)

/-- The output of process_edges when every Bernoulli draw comes up 1:
every column of every type goes to the train split. -/
def allTrainOut (raw : List (List Edge)) : SplitOut :=
  assemble (pureLoop (fun _ n => List.replicate n true) 0 raw)

/-- Coordinate-format sparse matrix: the arrays mat.row and mat.col. -/
structure Coo where
  row : List ℤ
  col : List ℤ

/-- Function get_edge_index_from_coo of utils.py.  With bidirection the
entries are first reduced to the half with row > col, then concatenated
with their row/col-swapped copy; otherwise row and col are stacked
verbatim. -/
def get_edge_index_from_coo (mat : Coo) (bidirection : Bool) : List Edge :=
  if bidirection then
    let half := (mat.row.zip mat.col).filter (fun e => decide (e.2 < e.1))
    half ++ half.map swapEdge
  else mat.row.zip mat.col

/-- Storage model for the aliasing analysis of to_bidirection: a store
maps tensor addresses to 2-row tensors, a tensor being its pair of rows. -/
def Store := ℕ → List ℤ × List ℤ

/-- Overwrite the tensor held at an address. -/
def writeT (h : Store) (a : ℕ) (v : List ℤ × List ℤ) : Store :=
  fun b => if b = a then v else h b

/-- Lines 21-22 of utils.py at storage level, with the caller tensor at
address ei and the clone allocated at address tmp.  First the clone is
written; then the tuple assignment evaluates both right-hand views
against the tensor at ei and writes row 0 and then row 1 of the tensor at
tmp. -/
def to_bidirection_steps (h : Store) (ei tmp : ℕ) : Store :=
  let h1 := writeT h tmp (h ei)
  let r1 := (h1 ei).2
  let r0 := (h1 ei).1
  let h2 := writeT h1 tmp (r1, (h1 tmp).2)
  let h3 := writeT h2 tmp ((h2 tmp).1, r0)
  h3

/-- Concrete two-tensor store used to instantiate the aliasing theorem. -/
def storeEx : Store :=
  fun a => if a = 0 then ([1, 2], [3, 4]) else ([], [])

/-- Concrete two-type raw edge list used to instantiate the process_edges
theorems. -/
def rawW : List (List Edge) := [[(2, 1), (3, 0)], [(4, 2)]]

/-- Concrete variate oracle used to instantiate the process_edges
theorems: draws alternate between 0, which falls below the threshold
p = 1 used in the instantiations, and 2, which does not. -/
def uW : ℕ → ℕ → ℚ := fun i j => if (i + j) % 2 = 0 then 0 else 2

/-- Output of process_edges on rawW with p = 1 and the oracle uW: type
0 sends its first column to train and its second to test, type 1 sends
its column to test. -/
def outW : SplitOut :=
  { train_edge_idx := [(2, 1), (1, 2)]
    train_et := [0, 0]
    train_range := [(0, 2), (2, 2)]
    test_edge_idx := [(3, 0), (0, 3), (4, 2), (2, 4)]
    test_et := [0, 0, 1, 1]
    test_range := [(0, 2), (2, 4)] }

/-- Decidable equality of Except values with decidable components, used
to evaluate the embedded functions on concrete inputs. -/
def exceptEqDec {ε α : Type} [DecidableEq ε] [DecidableEq α] :
    (x y : Except ε α) → Decidable (x = y)
  | Except.error v, Except.error w =>
    if h : v = w then Decidable.isTrue (by rw [h])
    else Decidable.isFalse (fun hc => h (Except.error.inj hc))
  | Except.error _, Except.ok _ => Decidable.isFalse (fun hc => Except.noConfusion hc)
  | Except.ok _, Except.error _ => Decidable.isFalse (fun hc => Except.noConfusion hc)
  | Except.ok v, Except.ok w =>
    if h : v = w then Decidable.isTrue (by rw [h])
    else Decidable.isFalse (fun hc => h (Except.ok.inj hc))

instance {ε α : Type} [DecidableEq ε] [DecidableEq α] : DecidableEq (Except ε α) :=
  exceptEqDec

/-! ### Lemmas about idxFilter and select -/

theorem idxFilter_shift (p : α → Bool) (l : List α) (s : ℕ) :
    idxFilter p l (s + 1) = (idxFilter p l s).map (· + 1) := by
  induction l generalizing s with
  | nil => rfl
  | cons x xs ih =>
    by_cases h : p x
    · simp [idxFilter, h, ih (s + 1)]
    · simp [idxFilter, h, ih (s + 1)]

theorem mem_idxFilter {p : α → Bool} {l : List α} {j : ℕ} :
    j ∈ idxFilter p l 0 ↔ ∃ a, l[j]? = some a ∧ p a = true := by
  induction l generalizing j with
  | nil => simp [idxFilter]
  | cons x xs ih =>
    rw [show idxFilter p (x :: xs) 0 =
        if p x then 0 :: idxFilter p xs 1 else idxFilter p xs 1 from rfl,
      show (1 : ℕ) = 0 + 1 from rfl, idxFilter_shift]
    by_cases h : p x
    · cases j with
      | zero => simp [h]
      | succ j => simpa [h, Nat.succ_eq_add_one] using ih
    · cases j with
      | zero =>
        simp only [if_neg h, List.mem_map, List.getElem?_cons_zero]
        constructor
        · rintro ⟨a, _, hcontra⟩; omega
        · rintro ⟨a, ha, hpa⟩
          exact absurd hpa (by simpa [← Option.some_inj.mp ha] using h)
      | succ j => simpa [h, Nat.succ_eq_add_one] using ih

theorem idxFilter_lt_length {p : α → Bool} {l : List α} {j : ℕ}
    (h : j ∈ idxFilter p l 0) : j < l.length := by
  obtain ⟨a, ha, -⟩ := mem_idxFilter.mp h
  exact (List.getElem?_eq_some_iff.mp ha).1

theorem idxFilter_ge {p : α → Bool} {l : List α} {s j : ℕ}
    (h : j ∈ idxFilter p l s) : s ≤ j := by
  induction l generalizing s with
  | nil => simp [idxFilter] at h
  | cons x xs ih =>
    by_cases hx : p x
    · simp only [idxFilter, if_pos hx, List.mem_cons] at h
      rcases h with rfl | h
      · exact le_refl j
      · exact le_trans (Nat.le_succ s) (ih h)
    · simp only [idxFilter, if_neg hx] at h
      exact le_trans (Nat.le_succ s) (ih h)

theorem idxFilter_sorted (p : α → Bool) (l : List α) (s : ℕ) :
    List.Sorted (· < ·) (idxFilter p l s) := by
  induction l generalizing s with
  | nil => simp [idxFilter, List.Sorted]
  | cons x xs ih =>
    by_cases hx : p x
    · simp only [idxFilter, if_pos hx]
      refine List.sorted_cons.mpr ⟨fun b hb => ?_, ih (s + 1)⟩
      exact lt_of_lt_of_le (Nat.lt_succ_self s) (idxFilter_ge hb)
    · simpa [idxFilter, if_neg hx] using ih (s + 1)

theorem select_map_succ (x : α) (xs : List α) (js : List ℕ) :
    select (x :: xs) (js.map (· + 1)) = select xs js := by
  unfold select
  rw [List.filterMap_map]
  exact List.filterMap_congr (fun j _ => by simp [Function.comp])

theorem select_idxFilter (p : α → Bool) (l : List α) :
    select l (idxFilter p l 0) = l.filter p := by
  induction l with
  | nil => rfl
  | cons x xs ih =>
    rw [show idxFilter p (x :: xs) 0 =
        if p x then 0 :: idxFilter p xs 1 else idxFilter p xs 1 from rfl,
      show (1 : ℕ) = 0 + 1 from rfl, idxFilter_shift]
    by_cases h : p x
    · simp only [if_pos h, List.filter_cons_of_pos h]
      rw [show select (x :: xs) (0 :: (idxFilter p xs 0).map (· + 1)) =
          x :: select (x :: xs) ((idxFilter p xs 0).map (· + 1)) from
          List.filterMap_cons_some (by simp), select_map_succ, ih]
    · rw [if_neg h, List.filter_cons_of_neg h, select_map_succ, ih]

theorem select_length {l : List α} {js : List ℕ}
    (h : ∀ j ∈ js, j < l.length) : (select l js).length = js.length := by
  induction js with
  | nil => rfl
  | cons j js ih =>
    have hlt : j < l.length := h j (List.mem_cons_self j js)
    have hj : l[j]? = some l[j] := List.getElem?_eq_getElem hlt
    unfold select
    rw [List.filterMap_cons_some hj]
    simp only [List.length_cons]
    rw [show js.filterMap (fun j => l[j]?) = select l js from rfl,
      ih (fun a ha => h a (List.mem_cons_of_mem j ha))]

theorem idxFilter_of_forall_true {p : α → Bool} {l : List α}
    (h : ∀ x ∈ l, p x = true) (s : ℕ) :
    idxFilter p l s = List.range' s l.length := by
  induction l generalizing s with
  | nil => rfl
  | cons x xs ih =>
    rw [idxFilter, if_pos (h x (List.mem_cons_self x xs)), List.length_cons,
      List.range'_succ, ih (fun a ha => h a (List.mem_cons_of_mem x ha))]

theorem idxFilter_of_forall_false {p : α → Bool} {l : List α}
    (h : ∀ x ∈ l, p x = false) (s : ℕ) : idxFilter p l s = [] := by
  induction l generalizing s with
  | nil => rfl
  | cons x xs ih =>
    rw [idxFilter, if_neg (by simp [h x (List.mem_cons_self x xs)]),
      ih (fun a ha => h a (List.mem_cons_of_mem x ha))]

theorem select_range (l : List α) : select l (List.range l.length) = l := by
  have h1 : idxFilter (fun _ => true) l 0 = List.range' 0 l.length :=
    idxFilter_of_forall_true (fun _ _ => rfl) 0
  have h2 := select_idxFilter (fun _ => true) l
  rw [h1, ← List.range_eq_range'] at h2
  rw [h2, List.filter_eq_self.mpr (fun _ _ => rfl)]

/-! ### Lemmas about trainSet and testSet -/

theorem mem_trainSet {m : List Bool} {j : ℕ} :
    j ∈ trainSet m ↔ m[j]? = some true := by
  rw [trainSet, mem_idxFilter]
  constructor
  · rintro ⟨a, ha, rfl⟩; exact ha
  · intro h; exact ⟨true, h, rfl⟩

theorem mem_testSet {m : List Bool} {j : ℕ} :
    j ∈ testSet m ↔ m[j]? = some false := by
  rw [testSet, mem_idxFilter]
  constructor
  · rintro ⟨a, ha, hpa⟩
    simp only [Bool.not_eq_eq_eq_not, Bool.not_true] at hpa
    rw [ha, show a = false from by simpa using hpa]
  · intro h; exact ⟨false, h, rfl⟩

theorem trainSet_lt_length {m : List Bool} {j : ℕ} (h : j ∈ trainSet m) :
    j < m.length :=
  idxFilter_lt_length h

theorem testSet_lt_length {m : List Bool} {j : ℕ} (h : j ∈ testSet m) :
    j < m.length :=
  idxFilter_lt_length h

theorem trainSet_replicate_false (n : ℕ) :
    trainSet (List.replicate n false) = [] :=
  idxFilter_of_forall_false (fun x hx => by rw [List.eq_of_mem_replicate hx]) 0

theorem testSet_replicate_false (n : ℕ) :
    testSet (List.replicate n false) = List.range n := by
  rw [testSet,
    idxFilter_of_forall_true (fun x hx => by rw [List.eq_of_mem_replicate hx]; rfl) 0,
    List.length_replicate, List.range_eq_range']

theorem trainSet_replicate_true (n : ℕ) :
    trainSet (List.replicate n true) = List.range n := by
  rw [trainSet,
    idxFilter_of_forall_true (fun x hx => by rw [List.eq_of_mem_replicate hx]) 0,
    List.length_replicate, List.range_eq_range']

theorem testSet_replicate_true (n : ℕ) :
    testSet (List.replicate n true) = [] :=
  idxFilter_of_forall_false (fun x hx => by rw [List.eq_of_mem_replicate hx]; rfl) 0

/-- Length of the columns selected by the train half of a mask whose
length matches the column count. -/
theorem select_trainSet_length {E : List Edge} {m : List Bool}
    (hm : m.length = E.length) :
    (select E (trainSet m)).length = (trainSet m).length :=
  select_length (fun j hj => hm ▸ trainSet_lt_length hj)

theorem select_testSet_length {E : List Edge} {m : List Bool}
    (hm : m.length = E.length) :
    (select E (testSet m)).length = (testSet m).length :=
  select_length (fun j hj => hm ▸ testSet_lt_length hj)

/-! ### Lemmas about to_bidirection -/

theorem to_bidirection_length (E : List Edge) :
    (to_bidirection E).length = 2 * E.length := by
  rw [to_bidirection, List.length_append, List.length_map, Nat.two_mul]

theorem to_bidirection_nil : to_bidirection ([] : List Edge) = [] := rfl

/-! ### Lemmas about range tables, offsets and flat segments -/

theorem rangeGo_length (s : ℕ) (l : List (List α)) :
    (rangeGo s l).length = l.length := by
  induction l generalizing s with
  | nil => rfl
  | cons x xs ih => simp [rangeGo, ih]

theorem offTo_zero (l : List (List α)) : offTo l 0 = 0 := rfl

theorem offTo_cons_succ (x : List α) (xs : List (List α)) (k : ℕ) :
    offTo (x :: xs) (k + 1) = x.length + offTo xs k := by
  simp [offTo]

theorem offTo_congr {l₁ : List (List α)} {l₂ : List (List β)}
    (h : l₁.map List.length = l₂.map List.length) (k : ℕ) :
    offTo l₁ k = offTo l₂ k := by
  rw [offTo, offTo, h]

theorem rangeGo_getD {l : List (List α)} (s : ℕ) {k : ℕ} (hk : k < l.length) :
    (rangeGo s l).getD k (0, 0) =
      (s + offTo l k, s + offTo l k + (l.getD k []).length) := by
  induction l generalizing s k with
  | nil => simp at hk
  | cons x xs ih =>
    cases k with
    | zero => simp [rangeGo, offTo_zero]
    | succ k =>
      have hk1 : k < xs.length := by simpa using hk
      simp only [rangeGo, List.getD_cons_succ, offTo_cons_succ]
      rw [ih (s + x.length) hk1]
      ring_nf

theorem get_range_list_getD {l : List (List α)} {k : ℕ} (hk : k < l.length) :
    (get_range_list l).getD k (0, 0) =
      (offTo l k, offTo l k + (l.getD k []).length) := by
  have h := rangeGo_getD 0 hk
  simpa [get_range_list] using h

theorem get_range_list_length (l : List (List α)) :
    (get_range_list l).length = l.length :=
  rangeGo_length 0 l

theorem flatten_seg {l : List (List α)} {k : ℕ} (hk : k < l.length) :
    (l.flatten.drop (offTo l k)).take (l.getD k []).length = l.getD k [] := by
  induction l generalizing k with
  | nil => simp at hk
  | cons x xs ih =>
    cases k with
    | zero =>
      simp only [List.flatten_cons, offTo_zero, List.drop_zero, List.getD_cons_zero]
      exact List.take_left x xs.flatten
    | succ k =>
      have hk1 : k < xs.length := by simpa using hk
      simp only [List.flatten_cons, offTo_cons_succ, List.getD_cons_succ]
      rw [← List.drop_drop, List.drop_left x xs.flatten]
      exact ih hk1

theorem map_length_length {l₁ : List (List α)} {l₂ : List (List β)}
    (h : l₁.map List.length = l₂.map List.length) : l₁.length = l₂.length := by
  have := congrArg List.length h
  simpa using this

theorem getD_length_eq {l₁ : List (List α)} {l₂ : List (List β)}
    (h : l₁.map List.length = l₂.map List.length) {k : ℕ} (hk : k < l₁.length) :
    (l₁.getD k []).length = (l₂.getD k []).length := by
  have hk2 : k < l₂.length := map_length_length h ▸ hk
  have h1 : (l₁.map List.length)[k]? = (l₂.map List.length)[k]? := by rw [h]
  rw [List.getElem?_map, List.getElem?_map, List.getElem?_eq_getElem hk,
    List.getElem?_eq_getElem hk2] at h1
  have h2 : (l₁[k]).length = (l₂[k]).length := by
    simpa using h1
  rw [List.getD_eq_getElem?_getD, List.getD_eq_getElem?_getD,
    List.getElem?_eq_getElem hk, List.getElem?_eq_getElem hk2]
  simpa using h2

theorem flatten_seg_pair {l₁ : List (List α)} {l₂ : List (List β)}
    (h : l₁.map List.length = l₂.map List.length) {k : ℕ} (hk : k < l₁.length) :
    (l₂.flatten.drop (offTo l₁ k)).take (l₁.getD k []).length = l₂.getD k [] := by
  rw [offTo_congr h, getD_length_eq h hk]
  exact flatten_seg (map_length_length h ▸ hk)

theorem getD_map_of_lt {l : List α} {f : α → β} {k : ℕ} (hk : k < l.length)
    (d : β) (e : α) : (l.map f).getD k d = f (l.getD k e) := by
  rw [List.getD_eq_getElem?_getD, List.getD_eq_getElem?_getD, List.getElem?_map,
    List.getElem?_eq_getElem hk]
  rfl

/-! ### Lemmas about the sampler and the splitting loop -/

theorem npMask_length (p : ℚ) (u : ℕ → ℕ → ℚ) (i n : ℕ) :
    (npMask p u i n).length = n := by
  simp [npMask]

theorem npMask_zero {u : ℕ → ℕ → ℚ} (hu : ∀ i j, 0 ≤ u i j) (i n : ℕ) :
    npMask 0 u i n = List.replicate n false := by
  rw [npMask, List.map_map]
  have h1 : List.map ((fun q => decide (q < 0)) ∘ u i) (List.range n) =
      List.map (fun _ => false) (List.range n) :=
    List.map_congr_left (fun j _ => by simp [Function.comp, not_lt.mpr (hu i j)])
  rw [h1, List.map_const', List.length_range]

theorem npMask_one {u : ℕ → ℕ → ℚ} (hu : ∀ i j, u i j < 1) (i n : ℕ) :
    npMask 1 u i n = List.replicate n true := by
  rw [npMask, List.map_map]
  have h1 : List.map ((fun q => decide (q < 1)) ∘ u i) (List.range n) =
      List.map (fun _ => true) (List.range n) :=
    List.map_congr_left (fun j _ => by simp [Function.comp, hu i j])
  rw [h1, List.map_const', List.length_range]

theorem pureLoop_length (msk : ℕ → ℕ → List Bool) (i : ℕ) (raw : List (List Edge)) :
    (pureLoop msk i raw).length = raw.length := by
  induction raw generalizing i with
  | nil => rfl
  | cons E rest ih => simp [pureLoop, ih]

theorem pureLoop_getElem? (msk : ℕ → ℕ → List Bool) (i k : ℕ)
    (raw : List (List Edge)) :
    (pureLoop msk i raw)[k]? =
      (raw[k]?).map (fun E => typeOutOf (i + k) E (msk (i + k) E.length)) := by
  induction raw generalizing i k with
  | nil => simp [pureLoop]
  | cons E rest ih =>
    cases k with
    | zero => simp [pureLoop]
    | succ k =>
      simp only [pureLoop, List.getElem?_cons_succ, ih (i + 1) k]
      have : i + 1 + k = i + (k + 1) := by omega
      rw [this]

theorem pureLoop_congr {msk₁ msk₂ : ℕ → ℕ → List Bool}
    (h : ∀ i n, msk₁ i n = msk₂ i n) (i : ℕ) (raw : List (List Edge)) :
    pureLoop msk₁ i raw = pureLoop msk₂ i raw := by
  have : msk₁ = msk₂ := funext (fun a => funext (fun b => h a b))
  rw [this]

theorem processLoop_ok {p : ℚ} (h0 : ¬p < 0) (h1 : ¬1 < p) (u : ℕ → ℕ → ℚ)
    (i : ℕ) (raw : List (List Edge)) :
    processLoop p u i raw = Except.ok (pureLoop (npMask p u) i raw) := by
  induction raw generalizing i with
  | nil => rfl
  | cons E rest ih =>
    rw [processLoop, np_binomial_mask, if_neg h0, if_neg h1, ih (i + 1)]
    rfl

theorem torch_cat_ok {l : List (List α)} (h : l ≠ []) :
    torch_cat l = Except.ok l.flatten := by
  cases l with
  | nil => exact absurd rfl h
  | cons x xs => rfl

theorem pureLoop_ne_nil (msk : ℕ → ℕ → List Bool) (i : ℕ)
    {raw : List (List Edge)} (hraw : raw ≠ []) : pureLoop msk i raw ≠ [] := by
  cases raw with
  | nil => exact absurd rfl hraw
  | cons E rest => simp [pureLoop]

theorem catAssemble_ok {outs : List TypeOut} (h : outs ≠ []) :
    catAssemble outs = Except.ok (assemble outs) := by
  cases outs with
  | nil => exact absurd rfl h
  | cons o rest => rfl

theorem catAssemble_nil :
    catAssemble [] = Except.error "expected a non-empty list of Tensors" := rfl

theorem process_edges_ok {p : ℚ} (h0 : 0 ≤ p) (h1 : p ≤ 1) (u : ℕ → ℕ → ℚ)
    (raw : List (List Edge)) (hraw : raw ≠ []) :
    process_edges raw p u =
      Except.ok (assemble (pureLoop (npMask p u) 0 raw)) := by
  unfold process_edges
  rw [processLoop_ok (not_lt.mpr h0) (not_lt.mpr h1) u 0 raw]
  exact catAssemble_ok (pureLoop_ne_nil (npMask p u) 0 hraw)

theorem process_edges_nil (p : ℚ) (u : ℕ → ℕ → ℚ) :
    process_edges [] p u =
      Except.error "expected a non-empty list of Tensors" := rfl

/-- With an in-range mask oracle, the per-type label runs of the train
side have the same lengths as the bidirectionalized per-type train edge
lists. -/
theorem train_profiles {msk : ℕ → ℕ → List Bool}
    (hm : ∀ i n, (msk i n).length = n) (i : ℕ) (raw : List (List Edge)) :
    ((pureLoop msk i raw).map (fun o => to_bidirection o.tr)).map List.length =
      ((pureLoop msk i raw).map (fun o => o.trL)).map List.length := by
  induction raw generalizing i with
  | nil => rfl
  | cons E rest ih =>
    simp only [pureLoop, List.map_cons]
    rw [ih (i + 1)]
    congr 1
    rw [typeOutOf, to_bidirection_length, select_trainSet_length (hm i E.length),
      List.length_replicate]

theorem test_profiles {msk : ℕ → ℕ → List Bool}
    (hm : ∀ i n, (msk i n).length = n) (i : ℕ) (raw : List (List Edge)) :
    ((pureLoop msk i raw).map (fun o => to_bidirection o.te)).map List.length =
      ((pureLoop msk i raw).map (fun o => o.teL)).map List.length := by
  induction raw generalizing i with
  | nil => rfl
  | cons E rest ih =>
    simp only [pureLoop, List.map_cons]
    rw [ih (i + 1)]
    congr 1
    rw [typeOutOf, to_bidirection_length, select_testSet_length (hm i E.length),
      List.length_replicate]

/-! ### Extraction lemmas for the assembled output of process_edges -/

theorem offTo_succ {l : List (List α)} {k : ℕ} (hk : k < l.length) :
    offTo l (k + 1) = offTo l k + (l.getD k []).length := by
  induction l generalizing k with
  | nil => simp at hk
  | cons x xs ih =>
    cases k with
    | zero => simp [offTo_cons_succ, offTo_zero]
    | succ k =>
      have hk1 : k < xs.length := by simpa using hk
      rw [offTo_cons_succ, ih hk1, offTo_cons_succ, List.getD_cons_succ]
      ring

theorem pureLoop_map_getD (f : TypeOut → β) (d : β) (msk : ℕ → ℕ → List Bool)
    {raw : List (List Edge)} {k : ℕ} (hk : k < raw.length) :
    ((pureLoop msk 0 raw).map f).getD k d =
      f (typeOutOf k (raw.getD k []) (msk k (raw.getD k []).length)) := by
  have h1 : (pureLoop msk 0 raw)[k]? =
      some (typeOutOf k (raw.getD k []) (msk k (raw.getD k []).length)) := by
    rw [pureLoop_getElem?, List.getElem?_eq_getElem hk]
    simp [List.getD_eq_getElem?_getD, List.getElem?_eq_getElem hk]
  rw [List.getD_eq_getElem?_getD, List.getElem?_map, h1]
  rfl

theorem trainL_getD (msk : ℕ → ℕ → List Bool) {raw : List (List Edge)} {k : ℕ}
    (hk : k < raw.length) :
    ((pureLoop msk 0 raw).map (fun o => to_bidirection o.tr)).getD k [] =
      to_bidirection
        (select (raw.getD k []) (trainSet (msk k (raw.getD k []).length))) :=
  pureLoop_map_getD (fun o => to_bidirection o.tr) [] msk hk

theorem testL_getD (msk : ℕ → ℕ → List Bool) {raw : List (List Edge)} {k : ℕ}
    (hk : k < raw.length) :
    ((pureLoop msk 0 raw).map (fun o => to_bidirection o.te)).getD k [] =
      to_bidirection
        (select (raw.getD k []) (testSet (msk k (raw.getD k []).length))) :=
  pureLoop_map_getD (fun o => to_bidirection o.te) [] msk hk

theorem trainL_length (msk : ℕ → ℕ → List Bool) (raw : List (List Edge)) :
    ((pureLoop msk 0 raw).map (fun o => to_bidirection o.tr)).length =
      raw.length := by
  rw [List.length_map, pureLoop_length]

theorem testL_length (msk : ℕ → ℕ → List Bool) (raw : List (List Edge)) :
    ((pureLoop msk 0 raw).map (fun o => to_bidirection o.te)).length =
      raw.length := by
  rw [List.length_map, pureLoop_length]

theorem trainL_getD_length {msk : ℕ → ℕ → List Bool}
    (hm : ∀ i n, (msk i n).length = n) {raw : List (List Edge)} {k : ℕ}
    (hk : k < raw.length) :
    (((pureLoop msk 0 raw).map (fun o => to_bidirection o.tr)).getD k []).length
      = 2 * (trainSet (msk k (raw.getD k []).length)).length := by
  rw [trainL_getD msk hk, to_bidirection_length,
    select_trainSet_length (hm k (raw.getD k []).length)]

theorem testL_getD_length {msk : ℕ → ℕ → List Bool}
    (hm : ∀ i n, (msk i n).length = n) {raw : List (List Edge)} {k : ℕ}
    (hk : k < raw.length) :
    (((pureLoop msk 0 raw).map (fun o => to_bidirection o.te)).getD k []).length
      = 2 * (testSet (msk k (raw.getD k []).length)).length := by
  rw [testL_getD msk hk, to_bidirection_length,
    select_testSet_length (hm k (raw.getD k []).length)]

theorem assemble_train_range_getD {msk : ℕ → ℕ → List Bool}
    {raw : List (List Edge)} {k : ℕ} (hk : k < raw.length) :
    (assemble (pureLoop msk 0 raw)).train_range.getD k (0, 0) =
      (offTo ((pureLoop msk 0 raw).map (fun o => to_bidirection o.tr)) k,
        offTo ((pureLoop msk 0 raw).map (fun o => to_bidirection o.tr)) k +
          (((pureLoop msk 0 raw).map (fun o => to_bidirection o.tr)).getD k
            []).length) := by
  rw [assemble]
  exact get_range_list_getD (by rw [trainL_length]; exact hk)

theorem assemble_test_range_getD {msk : ℕ → ℕ → List Bool}
    {raw : List (List Edge)} {k : ℕ} (hk : k < raw.length) :
    (assemble (pureLoop msk 0 raw)).test_range.getD k (0, 0) =
      (offTo ((pureLoop msk 0 raw).map (fun o => to_bidirection o.te)) k,
        offTo ((pureLoop msk 0 raw).map (fun o => to_bidirection o.te)) k +
          (((pureLoop msk 0 raw).map (fun o => to_bidirection o.te)).getD k
            []).length) := by
  rw [assemble]
  exact get_range_list_getD (by rw [testL_length]; exact hk)

theorem assemble_train_seg (msk : ℕ → ℕ → List Bool) {raw : List (List Edge)}
    {k : ℕ} (hk : k < raw.length) :
    listSeg (assemble (pureLoop msk 0 raw)).train_edge_idx
        ((assemble (pureLoop msk 0 raw)).train_range.getD k (0, 0)) =
      to_bidirection
        (select (raw.getD k []) (trainSet (msk k (raw.getD k []).length))) := by
  rw [assemble_train_range_getD hk, listSeg]
  simp only [Nat.add_sub_cancel_left]
  rw [show (assemble (pureLoop msk 0 raw)).train_edge_idx =
      ((pureLoop msk 0 raw).map (fun o => to_bidirection o.tr)).flatten from rfl]
  rw [flatten_seg (by rw [trainL_length]; exact hk)]
  exact trainL_getD msk hk

theorem assemble_test_seg (msk : ℕ → ℕ → List Bool) {raw : List (List Edge)}
    {k : ℕ} (hk : k < raw.length) :
    listSeg (assemble (pureLoop msk 0 raw)).test_edge_idx
        ((assemble (pureLoop msk 0 raw)).test_range.getD k (0, 0)) =
      to_bidirection
        (select (raw.getD k []) (testSet (msk k (raw.getD k []).length))) := by
  rw [assemble_test_range_getD hk, listSeg]
  simp only [Nat.add_sub_cancel_left]
  rw [show (assemble (pureLoop msk 0 raw)).test_edge_idx =
      ((pureLoop msk 0 raw).map (fun o => to_bidirection o.te)).flatten from rfl]
  rw [flatten_seg (by rw [testL_length]; exact hk)]
  exact testL_getD msk hk

theorem assemble_train_label_seg {msk : ℕ → ℕ → List Bool}
    (hm : ∀ i n, (msk i n).length = n) {raw : List (List Edge)} {k : ℕ}
    (hk : k < raw.length) :
    listSeg (assemble (pureLoop msk 0 raw)).train_et
        ((assemble (pureLoop msk 0 raw)).train_range.getD k (0, 0)) =
      List.replicate (2 * (trainSet (msk k (raw.getD k []).length)).length) k
      := by
  rw [assemble_train_range_getD hk, listSeg]
  simp only [Nat.add_sub_cancel_left]
  rw [show (assemble (pureLoop msk 0 raw)).train_et =
      ((pureLoop msk 0 raw).map (fun o => o.trL)).flatten from rfl]
  rw [flatten_seg_pair (train_profiles hm 0 raw) (by rw [trainL_length]; exact hk)]
  exact pureLoop_map_getD (fun o => o.trL) [] msk hk

theorem assemble_test_label_seg {msk : ℕ → ℕ → List Bool}
    (hm : ∀ i n, (msk i n).length = n) {raw : List (List Edge)} {k : ℕ}
    (hk : k < raw.length) :
    listSeg (assemble (pureLoop msk 0 raw)).test_et
        ((assemble (pureLoop msk 0 raw)).test_range.getD k (0, 0)) =
      List.replicate (2 * (testSet (msk k (raw.getD k []).length)).length) k
      := by
  rw [assemble_test_range_getD hk, listSeg]
  simp only [Nat.add_sub_cancel_left]
  rw [show (assemble (pureLoop msk 0 raw)).test_et =
      ((pureLoop msk 0 raw).map (fun o => o.teL)).flatten from rfl]
  rw [flatten_seg_pair (test_profiles hm 0 raw) (by rw [testL_length]; exact hk)]
  exact pureLoop_map_getD (fun o => o.teL) [] msk hk

theorem assemble_train_lengths {msk : ℕ → ℕ → List Bool}
    (hm : ∀ i n, (msk i n).length = n) (raw : List (List Edge)) :
    (assemble (pureLoop msk 0 raw)).train_et.length =
      (assemble (pureLoop msk 0 raw)).train_edge_idx.length := by
  rw [show (assemble (pureLoop msk 0 raw)).train_et =
      ((pureLoop msk 0 raw).map (fun o => o.trL)).flatten from rfl,
    show (assemble (pureLoop msk 0 raw)).train_edge_idx =
      ((pureLoop msk 0 raw).map (fun o => to_bidirection o.tr)).flatten from rfl,
    List.length_flatten, List.length_flatten, train_profiles hm 0 raw]

theorem assemble_test_lengths {msk : ℕ → ℕ → List Bool}
    (hm : ∀ i n, (msk i n).length = n) (raw : List (List Edge)) :
    (assemble (pureLoop msk 0 raw)).test_et.length =
      (assemble (pureLoop msk 0 raw)).test_edge_idx.length := by
  rw [show (assemble (pureLoop msk 0 raw)).test_et =
      ((pureLoop msk 0 raw).map (fun o => o.teL)).flatten from rfl,
    show (assemble (pureLoop msk 0 raw)).test_edge_idx =
      ((pureLoop msk 0 raw).map (fun o => to_bidirection o.te)).flatten from rfl,
    List.length_flatten, List.length_flatten, test_profiles hm 0 raw]

/-! ### Structure of the boundary splits with all-false or all-true masks -/

theorem allfalse_trainL (i : ℕ) (raw : List (List Edge)) :
    (pureLoop (fun _ n => List.replicate n false) i raw).map
        (fun o => to_bidirection o.tr) =
      List.replicate raw.length [] := by
  induction raw generalizing i with
  | nil => rfl
  | cons E rest ih =>
    simp only [pureLoop, List.map_cons, List.length_cons, List.replicate_succ]
    rw [ih (i + 1)]
    congr 1
    rw [typeOutOf, trainSet_replicate_false]
    rfl

theorem allfalse_trL (i : ℕ) (raw : List (List Edge)) :
    (pureLoop (fun _ n => List.replicate n false) i raw).map (fun o => o.trL) =
      List.replicate raw.length [] := by
  induction raw generalizing i with
  | nil => rfl
  | cons E rest ih =>
    simp only [pureLoop, List.map_cons, List.length_cons, List.replicate_succ]
    rw [ih (i + 1)]
    congr 1
    rw [typeOutOf, trainSet_replicate_false]
    rfl

theorem allfalse_testL (i : ℕ) (raw : List (List Edge)) :
    (pureLoop (fun _ n => List.replicate n false) i raw).map
        (fun o => to_bidirection o.te) =
      raw.map to_bidirection := by
  induction raw generalizing i with
  | nil => rfl
  | cons E rest ih =>
    simp only [pureLoop, List.map_cons]
    rw [ih (i + 1)]
    congr 1
    rw [typeOutOf]
    simp only
    rw [testSet_replicate_false, select_range]

theorem alltrue_testL (i : ℕ) (raw : List (List Edge)) :
    (pureLoop (fun _ n => List.replicate n true) i raw).map
        (fun o => to_bidirection o.te) =
      List.replicate raw.length [] := by
  induction raw generalizing i with
  | nil => rfl
  | cons E rest ih =>
    simp only [pureLoop, List.map_cons, List.length_cons, List.replicate_succ]
    rw [ih (i + 1)]
    congr 1
    rw [typeOutOf, testSet_replicate_true]
    rfl

theorem alltrue_teL (i : ℕ) (raw : List (List Edge)) :
    (pureLoop (fun _ n => List.replicate n true) i raw).map (fun o => o.teL) =
      List.replicate raw.length [] := by
  induction raw generalizing i with
  | nil => rfl
  | cons E rest ih =>
    simp only [pureLoop, List.map_cons, List.length_cons, List.replicate_succ]
    rw [ih (i + 1)]
    congr 1
    rw [typeOutOf, testSet_replicate_true]
    rfl

theorem alltrue_trainL (i : ℕ) (raw : List (List Edge)) :
    (pureLoop (fun _ n => List.replicate n true) i raw).map
        (fun o => to_bidirection o.tr) =
      raw.map to_bidirection := by
  induction raw generalizing i with
  | nil => rfl
  | cons E rest ih =>
    simp only [pureLoop, List.map_cons]
    rw [ih (i + 1)]
    congr 1
    rw [typeOutOf]
    simp only
    rw [trainSet_replicate_true, select_range]

theorem rangeGo_replicate_nil (s n : ℕ) :
    rangeGo s (List.replicate n ([] : List α)) = List.replicate n (s, s) := by
  induction n generalizing s with
  | zero => rfl
  | succ n ih =>
    simp only [List.replicate_succ, rangeGo, List.length_nil, Nat.add_zero]
    rw [ih s]

theorem allTestOut_train_edge (raw : List (List Edge)) :
    (allTestOut raw).train_edge_idx = [] := by
  rw [allTestOut, show (assemble (pureLoop (fun _ n => List.replicate n false)
    0 raw)).train_edge_idx = ((pureLoop (fun _ n => List.replicate n false)
    0 raw).map (fun o => to_bidirection o.tr)).flatten from rfl,
    allfalse_trainL, List.flatten_replicate_nil]

theorem allTestOut_train_et (raw : List (List Edge)) :
    (allTestOut raw).train_et = [] := by
  rw [allTestOut, show (assemble (pureLoop (fun _ n => List.replicate n false)
    0 raw)).train_et = ((pureLoop (fun _ n => List.replicate n false)
    0 raw).map (fun o => o.trL)).flatten from rfl,
    allfalse_trL, List.flatten_replicate_nil]

theorem allTestOut_train_range (raw : List (List Edge)) :
    (allTestOut raw).train_range = List.replicate raw.length (0, 0) := by
  rw [allTestOut, show (assemble (pureLoop (fun _ n => List.replicate n false)
    0 raw)).train_range = get_range_list ((pureLoop
    (fun _ n => List.replicate n false) 0 raw).map
    (fun o => to_bidirection o.tr)) from rfl,
    allfalse_trainL, get_range_list, rangeGo_replicate_nil]

theorem allTestOut_test_edge (raw : List (List Edge)) :
    (allTestOut raw).test_edge_idx = (raw.map to_bidirection).flatten := by
  rw [allTestOut, show (assemble (pureLoop (fun _ n => List.replicate n false)
    0 raw)).test_edge_idx = ((pureLoop (fun _ n => List.replicate n false)
    0 raw).map (fun o => to_bidirection o.te)).flatten from rfl,
    allfalse_testL]

theorem allTrainOut_test_edge (raw : List (List Edge)) :
    (allTrainOut raw).test_edge_idx = [] := by
  rw [allTrainOut, show (assemble (pureLoop (fun _ n => List.replicate n true)
    0 raw)).test_edge_idx = ((pureLoop (fun _ n => List.replicate n true)
    0 raw).map (fun o => to_bidirection o.te)).flatten from rfl,
    alltrue_testL, List.flatten_replicate_nil]

theorem allTrainOut_test_et (raw : List (List Edge)) :
    (allTrainOut raw).test_et = [] := by
  rw [allTrainOut, show (assemble (pureLoop (fun _ n => List.replicate n true)
    0 raw)).test_et = ((pureLoop (fun _ n => List.replicate n true)
    0 raw).map (fun o => o.teL)).flatten from rfl,
    alltrue_teL, List.flatten_replicate_nil]

theorem allTrainOut_test_range (raw : List (List Edge)) :
    (allTrainOut raw).test_range = List.replicate raw.length (0, 0) := by
  rw [allTrainOut, show (assemble (pureLoop (fun _ n => List.replicate n true)
    0 raw)).test_range = get_range_list ((pureLoop
    (fun _ n => List.replicate n true) 0 raw).map
    (fun o => to_bidirection o.te)) from rfl,
    alltrue_testL, get_range_list, rangeGo_replicate_nil]

theorem allTrainOut_train_edge (raw : List (List Edge)) :
    (allTrainOut raw).train_edge_idx = (raw.map to_bidirection).flatten := by
  rw [allTrainOut, show (assemble (pureLoop (fun _ n => List.replicate n true)
    0 raw)).train_edge_idx = ((pureLoop (fun _ n => List.replicate n true)
    0 raw).map (fun o => to_bidirection o.tr)).flatten from rfl,
    alltrue_trainL]

theorem process_edges_zero {u : ℕ → ℕ → ℚ} (hu : ∀ i j, 0 ≤ u i j)
    (raw : List (List Edge)) (hraw : raw ≠ []) :
    process_edges raw 0 u = Except.ok (allTestOut raw) := by
  rw [process_edges_ok (le_refl 0) (by norm_num) u raw hraw, allTestOut,
    pureLoop_congr (fun i n => npMask_zero hu i n) 0 raw]

theorem process_edges_one {u : ℕ → ℕ → ℚ} (hu : ∀ i j, u i j < 1)
    (raw : List (List Edge)) (hraw : raw ≠ []) :
    process_edges raw 1 u = Except.ok (allTrainOut raw) := by
  rw [process_edges_ok (by norm_num) (le_refl 1) u raw hraw, allTrainOut,
    pureLoop_congr (fun i n => npMask_one hu i n) 0 raw]

theorem process_edges_neg {p : ℚ} (hp : p < 0) (u : ℕ → ℕ → ℚ)
    {raw : List (List Edge)} (hraw : raw ≠ []) :
    process_edges raw p u = Except.error "p < 0" := by
  cases raw with
  | nil => exact absurd rfl hraw
  | cons E rest =>
    unfold process_edges
    rw [processLoop, np_binomial_mask, if_pos hp]

theorem process_edges_gt_one {p : ℚ} (hp : 1 < p) (u : ℕ → ℕ → ℚ)
    {raw : List (List Edge)} (hraw : raw ≠ []) :
    process_edges raw p u = Except.error "p > 1" := by
  cases raw with
  | nil => exact absurd rfl hraw
  | cons E rest =>
    unfold process_edges
    rw [processLoop, np_binomial_mask,
      if_neg (not_lt.mpr (le_of_lt (lt_of_le_of_lt zero_le_one hp))), if_pos hp]

/-! ### Claim theorems -/

/-- C1: for every per-type input list and every outcome of the Bernoulli
mask drawn in process_edges (the mask of a type with n original columns,
under any probability argument p and any variate oracle u), the train
column index set and the test column index set taken from the original
columns before bidirectionalization are disjoint, and their union is the
full original column index set of that type. -/
theorem spec_c1 (p : ℚ) (u : ℕ → ℕ → ℚ) (i n : ℕ) :
    Disjoint (trainSet (npMask p u i n)).toFinset
        (testSet (npMask p u i n)).toFinset ∧
      (trainSet (npMask p u i n)).toFinset ∪
          (testSet (npMask p u i n)).toFinset = Finset.range n := by
  constructor
  · rw [Finset.disjoint_left]
    intro j hjt hje
    rw [List.mem_toFinset, mem_trainSet] at hjt
    rw [List.mem_toFinset, mem_testSet] at hje
    rw [hjt] at hje
    exact Bool.noConfusion (Option.some.inj hje)
  · ext j
    rw [Finset.mem_union, List.mem_toFinset, List.mem_toFinset, mem_trainSet,
      mem_testSet, Finset.mem_range]
    constructor
    · rintro (h | h)
      · have := (List.getElem?_eq_some_iff.mp h).1
        rwa [npMask_length] at this
      · have := (List.getElem?_eq_some_iff.mp h).1
        rwa [npMask_length] at this
    · intro hj
      have hj2 : j < (npMask p u i n).length := by
        rw [npMask_length]; exact hj
      cases hb : (npMask p u i n)[j] with
      | true =>
        left
        rw [List.getElem?_eq_getElem hj2, hb]
      | false =>
        right
        rw [List.getElem?_eq_getElem hj2, hb]

/-- C3: for every canonical edge list E with m columns,
to_bidirection E has exactly 2m columns, and for every column (a, b)
present in the output, the reversed column (b, a) is also present. -/
theorem spec_c3 (E : List Edge) (a b : ℤ) (hcanon : ∀ e ∈ E, e.2 < e.1)
    (hmem : (a, b) ∈ to_bidirection E) :
    (to_bidirection E).length = 2 * E.length ∧ (b, a) ∈ to_bidirection E := by
  refine ⟨to_bidirection_length E, ?_⟩
  rw [to_bidirection, List.mem_append] at hmem ⊢
  rcases hmem with h | h
  · right
    exact List.mem_map.mpr ⟨(a, b), h, rfl⟩
  · left
    rcases List.mem_map.mp h with ⟨⟨x, y⟩, he, heq⟩
    rw [swapEdge] at heq
    obtain ⟨rfl, rfl⟩ := (Prod.mk.injEq _ _ _ _).mp heq
    exact he

/-- C3 witness: instantiation at the one-column canonical list [(2, 1)]
and the output column (1, 2). -/
theorem spec_c3_witness :
    (to_bidirection [((2:ℤ), (1:ℤ))]).length = 2 * [((2:ℤ), (1:ℤ))].length ∧
      ((2:ℤ), (1:ℤ)) ∈ to_bidirection [((2:ℤ), (1:ℤ))] :=
  spec_c3 [((2:ℤ), (1:ℤ))] 1 2 (by decide) (by decide)

/-- C4: for every edge list E all of whose columns satisfy
source > target, filtering the bidirectionalized list back through
remove_bidirection recovers exactly E (even as a list, hence also as a
set of unordered endpoint pairs). -/
theorem spec_c4 (E : List Edge) (hcanon : ∀ e ∈ E, e.2 < e.1) :
    remove_bidirection (to_bidirection E) = E := by
  rw [remove_bidirection, keepSet, select_idxFilter, to_bidirection,
    List.filter_append]
  rw [List.filter_eq_self.mpr (fun e he => decide_eq_true (hcanon e he))]
  have hnil : (E.map swapEdge).filter (fun e => decide (e.2 < e.1)) = [] := by
    rw [List.filter_eq_nil_iff]
    intro x hx
    rcases List.mem_map.mp hx with ⟨⟨v, w⟩, he, heq⟩
    rw [swapEdge] at heq
    rw [← heq]
    simp only [decide_eq_true_eq]
    exact lt_asymm (hcanon (v, w) he)
  rw [hnil, List.append_nil]

/-- C4 witness: instantiation at a two-column canonical list. -/
theorem spec_c4_witness :
    remove_bidirection (to_bidirection [((2:ℤ), (1:ℤ)), ((7:ℤ), (3:ℤ))]) =
      [((2:ℤ), (1:ℤ)), ((7:ℤ), (3:ℤ))] :=
  spec_c4 [((2:ℤ), (1:ℤ)), ((7:ℤ), (3:ℤ))] (by decide)

/-- C10: with bidirection set, get_edge_index_from_coo never emits a
self-loop: every column of the output has distinct endpoints, in either
direction, because the canonical filter is the strict comparison
row > col. -/
theorem spec_c10 (mat : Coo) (a b : ℤ)
    (hmem : (a, b) ∈ get_edge_index_from_coo mat true) : a ≠ b := by
  have hmem2 : (a, b) ∈
      ((mat.row.zip mat.col).filter (fun e => decide (e.2 < e.1))) ++
        ((mat.row.zip mat.col).filter (fun e => decide (e.2 < e.1))).map
          swapEdge := hmem
  rcases List.mem_append.mp hmem2 with h | h
  · have hlt := (List.mem_filter.mp h).2
    simp only [decide_eq_true_eq] at hlt
    exact ne_of_gt hlt
  · rcases List.mem_map.mp h with ⟨⟨v, w⟩, he, heq⟩
    have hlt := (List.mem_filter.mp he).2
    simp only [decide_eq_true_eq] at hlt
    rw [swapEdge] at heq
    obtain ⟨rfl, rfl⟩ := (Prod.mk.injEq _ _ _ _).mp heq
    exact ne_of_lt hlt

/-- C10 witness: instantiation at a coordinate matrix holding the entries
(1, 0) and the diagonal entry (0, 0); the column (1, 0) of the output has
distinct endpoints. -/
theorem spec_c10_witness : (1:ℤ) ≠ 0 :=
  spec_c10 ⟨[1, 0], [0, 0]⟩ 1 0 (by decide)

/-- C8: the row swap of to_bidirection operates on a clone: as long as
the clone lives at a fresh address, the caller tensor is unchanged by the
call and the clone holds the swapped rows, with no aliasing between the
two. -/
theorem spec_c8 (h : Store) (ei tmp : ℕ) (hne : tmp ≠ ei) :
    to_bidirection_steps h ei tmp ei = h ei ∧
      to_bidirection_steps h ei tmp tmp = ((h ei).2, (h ei).1) := by
  have hne2 : ¬ei = tmp := fun hc => hne hc.symm
  unfold to_bidirection_steps writeT
  constructor
  · simp [hne2]
  · simp [hne2]

/-- C8 witness: instantiation at a store holding the tensor
([1, 2], [3, 4]) at address 0, with the clone at address 1. -/
theorem spec_c8_witness :
    to_bidirection_steps storeEx 0 1 0 = storeEx 0 ∧
      to_bidirection_steps storeEx 0 1 1 = ((storeEx 0).2, (storeEx 0).1) :=
  spec_c8 storeEx 0 1 (by decide)

/-- C7 counterexample: the claim predicts that a mismatch between the
label length and the column count raises a LengthMismatchError; instead,
to_bidirection on the one-column list [(2, 1)] with the two labels [5, 6]
returns a value, and a misaligned one, and remove_bidirection on the same
mismatched pair also returns successfully. -/
theorem spec_c7_counterexample :
    to_bidirection_t [((2:ℤ), (1:ℤ))] [5, 6] =
        ([(2, 1), (1, 2)], [5, 6, 5, 6]) ∧
      (to_bidirection_t [((2:ℤ), (1:ℤ))] [5, 6]).2.length ≠
        (to_bidirection_t [((2:ℤ), (1:ℤ))] [5, 6]).1.length ∧
      remove_bidirection_t [((2:ℤ), (1:ℤ))] [5, 6] =
        Except.ok ([(2, 1)], [5]) := by
  refine ⟨rfl, by decide, rfl⟩

/-- C7 amended: neither function validates the label length against the
column count, and no LengthMismatchError exists.  to_bidirection always
returns, with 2m columns and 2L labels, a result that is misaligned
whenever L differs from m; remove_bidirection fails only with the
indexing error raised when some kept column position is out of bounds for
the label tensor. -/
theorem spec_c7_amended (E : List Edge) (t : List ℕ) :
    (to_bidirection_t E t).1.length = 2 * E.length ∧
      (to_bidirection_t E t).2.length = 2 * t.length ∧
      (t.length ≠ E.length →
        (to_bidirection_t E t).2.length ≠ (to_bidirection_t E t).1.length) ∧
      ((∃ r, remove_bidirection_t E t = Except.ok r) ↔
        ∀ j ∈ keepSet E, j < t.length) := by
  have h1 : (to_bidirection_t E t).1.length = 2 * E.length := by
    rw [to_bidirection_t]
    simp [Nat.two_mul]
  have h2 : (to_bidirection_t E t).2.length = 2 * t.length := by
    rw [to_bidirection_t]
    simp [Nat.two_mul]
  refine ⟨h1, h2, ?_, ?_⟩
  · intro hne heq
    rw [h1, h2] at heq
    omega
  · constructor
    · rintro ⟨r, hr⟩ j hj
      rw [remove_bidirection_t] at hr
      by_cases hall : (keepSet E).all (fun j => decide (j < t.length)) = true
      · have := List.all_eq_true.mp hall j hj
        simpa using this
      · rw [if_neg hall] at hr
        exact absurd hr (by simp)
    · intro hb
      refine ⟨(select E (keepSet E), select t (keepSet E)), ?_⟩
      rw [remove_bidirection_t,
        if_pos (List.all_eq_true.mpr (fun j hj => decide_eq_true (hb j hj)))]

/-- C6 counterexample: the claim states that every p outside (0, 1)
degrades to a deterministic split without raising; at p = -1 the call
instead propagates the ValueError of the numpy sampler. -/
theorem spec_c6_counterexample :
    process_edges [[((1:ℤ), (0:ℤ))]] (-1) (fun _ _ => 0) =
      Except.error "p < 0" := by
  decide

/-- C6 amended: process_edges itself does not validate p, but the numpy
sampler it calls does, and torch.cat rejects an empty concatenation.
With at least one input type, at exactly p = 0 the call degrades to a
deterministic all-test split and at exactly p = 1 to a deterministic
all-train split, the complementary split being empty with size-0 range
segments, without error, while for p < 0 or p > 1 the sampler raises a
ValueError on the first type; with no input types at all the loop never
draws and the first torch.cat raises its RuntimeError, for every p. -/
theorem spec_c6_amended (raw : List (List Edge)) (p : ℚ) (u : ℕ → ℕ → ℚ)
    (hu : ∀ i j, 0 ≤ u i j ∧ u i j < 1) :
    (p = 0 → raw ≠ [] →
        process_edges raw p u = Except.ok (allTestOut raw)) ∧
      (allTestOut raw).train_edge_idx = [] ∧
      (allTestOut raw).train_et = [] ∧
      (allTestOut raw).train_range = List.replicate raw.length (0, 0) ∧
      (allTestOut raw).test_edge_idx = (raw.map to_bidirection).flatten ∧
      (p = 1 → raw ≠ [] →
        process_edges raw p u = Except.ok (allTrainOut raw)) ∧
      (allTrainOut raw).test_edge_idx = [] ∧
      (allTrainOut raw).test_et = [] ∧
      (allTrainOut raw).test_range = List.replicate raw.length (0, 0) ∧
      (allTrainOut raw).train_edge_idx = (raw.map to_bidirection).flatten ∧
      (p < 0 → raw ≠ [] → process_edges raw p u = Except.error "p < 0") ∧
      (1 < p → raw ≠ [] → process_edges raw p u = Except.error "p > 1") ∧
      (raw = [] → process_edges raw p u =
        Except.error "expected a non-empty list of Tensors") := by
  refine ⟨?_, allTestOut_train_edge raw, allTestOut_train_et raw,
    allTestOut_train_range raw, allTestOut_test_edge raw, ?_,
    allTrainOut_test_edge raw, allTrainOut_test_et raw,
    allTrainOut_test_range raw, allTrainOut_train_edge raw, ?_, ?_, ?_⟩
  · rintro rfl hraw
    exact process_edges_zero (fun i j => (hu i j).1) raw hraw
  · rintro rfl hraw
    exact process_edges_one (fun i j => (hu i j).2) raw hraw
  · intro hp hraw
    exact process_edges_neg hp u hraw
  · intro hp hraw
    exact process_edges_gt_one hp u hraw
  · rintro rfl
    exact process_edges_nil p u

/-- C6 amended witness: instantiation at the one-type list [[(1, 0)]],
p = 0 and the constant-zero oracle. -/
theorem spec_c6_witness :
    ((0:ℚ) = 0 → [[((1:ℤ), (0:ℤ))]] ≠ [] →
        process_edges [[((1:ℤ), (0:ℤ))]] 0 (fun _ _ => 0) =
          Except.ok (allTestOut [[((1:ℤ), (0:ℤ))]])) ∧
      (allTestOut [[((1:ℤ), (0:ℤ))]]).train_edge_idx = [] ∧
      (allTestOut [[((1:ℤ), (0:ℤ))]]).train_et = [] ∧
      (allTestOut [[((1:ℤ), (0:ℤ))]]).train_range =
        List.replicate [[((1:ℤ), (0:ℤ))]].length (0, 0) ∧
      (allTestOut [[((1:ℤ), (0:ℤ))]]).test_edge_idx =
        ([[((1:ℤ), (0:ℤ))]].map to_bidirection).flatten ∧
      ((0:ℚ) = 1 → [[((1:ℤ), (0:ℤ))]] ≠ [] →
        process_edges [[((1:ℤ), (0:ℤ))]] 0 (fun _ _ => 0) =
          Except.ok (allTrainOut [[((1:ℤ), (0:ℤ))]])) ∧
      (allTrainOut [[((1:ℤ), (0:ℤ))]]).test_edge_idx = [] ∧
      (allTrainOut [[((1:ℤ), (0:ℤ))]]).test_et = [] ∧
      (allTrainOut [[((1:ℤ), (0:ℤ))]]).test_range =
        List.replicate [[((1:ℤ), (0:ℤ))]].length (0, 0) ∧
      (allTrainOut [[((1:ℤ), (0:ℤ))]]).train_edge_idx =
        ([[((1:ℤ), (0:ℤ))]].map to_bidirection).flatten ∧
      ((0:ℚ) < 0 → [[((1:ℤ), (0:ℤ))]] ≠ [] →
        process_edges [[((1:ℤ), (0:ℤ))]] 0 (fun _ _ => 0) =
          Except.error "p < 0") ∧
      ((1:ℚ) < 0 → [[((1:ℤ), (0:ℤ))]] ≠ [] →
        process_edges [[((1:ℤ), (0:ℤ))]] 0 (fun _ _ => 0) =
          Except.error "p > 1") ∧
      ([[((1:ℤ), (0:ℤ))]] = [] →
        process_edges [[((1:ℤ), (0:ℤ))]] 0 (fun _ _ => 0) =
          Except.error "expected a non-empty list of Tensors") :=
  spec_c6_amended [[((1:ℤ), (0:ℤ))]] 0 (fun _ _ => 0)
    (fun _ _ => ⟨le_refl 0, by norm_num⟩)

/-- C2: for every successful run of process_edges, entry k of each range
table is exactly the half-open column interval occupied by the
bidirectionalized edges of type k inside the corresponding flat tensor:
slicing the flat tensor by the entry returns the bidirectionalized
selection of type k, the entry spans 2 times the number of original
columns the mask assigned to the split, the table starts at 0, and each
entry starts where the previous entry ends. -/
theorem spec_c2 (raw : List (List Edge)) (p : ℚ) (u : ℕ → ℕ → ℚ)
    (out : SplitOut) (k : ℕ) (h0 : 0 ≤ p) (h1 : p ≤ 1)
    (hok : process_edges raw p u = Except.ok out) (hk : k < raw.length) :
    ((out.train_range.getD k (0, 0)).2 = (out.train_range.getD k (0, 0)).1 +
        2 * (trainSet (npMask p u k (raw.getD k []).length)).length) ∧
      listSeg out.train_edge_idx (out.train_range.getD k (0, 0)) =
        to_bidirection (select (raw.getD k [])
          (trainSet (npMask p u k (raw.getD k []).length))) ∧
      (out.train_range.getD 0 (0, 0)).1 = 0 ∧
      (k + 1 < raw.length → (out.train_range.getD (k + 1) (0, 0)).1 =
        (out.train_range.getD k (0, 0)).2) ∧
      ((out.test_range.getD k (0, 0)).2 = (out.test_range.getD k (0, 0)).1 +
        2 * (testSet (npMask p u k (raw.getD k []).length)).length) ∧
      listSeg out.test_edge_idx (out.test_range.getD k (0, 0)) =
        to_bidirection (select (raw.getD k [])
          (testSet (npMask p u k (raw.getD k []).length))) ∧
      (out.test_range.getD 0 (0, 0)).1 = 0 ∧
      (k + 1 < raw.length → (out.test_range.getD (k + 1) (0, 0)).1 =
        (out.test_range.getD k (0, 0)).2) := by
  have hraw : raw ≠ [] := by
    intro hnil
    rw [hnil] at hk
    simp at hk
  rw [process_edges_ok h0 h1 u raw hraw] at hok
  have hout := Except.ok.inj hok
  subst hout
  have hm : ∀ i n, (npMask p u i n).length = n := npMask_length p u
  have hk0 : 0 < raw.length := Nat.lt_of_le_of_lt (Nat.zero_le k) hk
  refine ⟨?_, assemble_train_seg (npMask p u) hk, ?_, ?_, ?_,
    assemble_test_seg (npMask p u) hk, ?_, ?_⟩
  · rw [assemble_train_range_getD hk]
    dsimp only
    rw [trainL_getD_length hm hk]
  · rw [assemble_train_range_getD hk0]
    rfl
  · intro hk1
    rw [assemble_train_range_getD hk1, assemble_train_range_getD hk]
    dsimp only
    exact offTo_succ (by rw [trainL_length]; exact hk)
  · rw [assemble_test_range_getD hk]
    dsimp only
    rw [testL_getD_length hm hk]
  · rw [assemble_test_range_getD hk0]
    rfl
  · intro hk1
    rw [assemble_test_range_getD hk1, assemble_test_range_getD hk]
    dsimp only
    exact offTo_succ (by rw [testL_length]; exact hk)

/-- C2 witness: instantiation at the two-type list rawW, p = 1, the
oracle uW, the output outW and type 0. -/
theorem spec_c2_witness :
    ((outW.train_range.getD 0 (0, 0)).2 = (outW.train_range.getD 0 (0, 0)).1 +
        2 * (trainSet (npMask 1 uW 0 (rawW.getD 0 []).length)).length) ∧
      listSeg outW.train_edge_idx (outW.train_range.getD 0 (0, 0)) =
        to_bidirection (select (rawW.getD 0 [])
          (trainSet (npMask 1 uW 0 (rawW.getD 0 []).length))) ∧
      (outW.train_range.getD 0 (0, 0)).1 = 0 ∧
      (0 + 1 < rawW.length → (outW.train_range.getD (0 + 1) (0, 0)).1 =
        (outW.train_range.getD 0 (0, 0)).2) ∧
      ((outW.test_range.getD 0 (0, 0)).2 = (outW.test_range.getD 0 (0, 0)).1 +
        2 * (testSet (npMask 1 uW 0 (rawW.getD 0 []).length)).length) ∧
      listSeg outW.test_edge_idx (outW.test_range.getD 0 (0, 0)) =
        to_bidirection (select (rawW.getD 0 [])
          (testSet (npMask 1 uW 0 (rawW.getD 0 []).length))) ∧
      (outW.test_range.getD 0 (0, 0)).1 = 0 ∧
      (0 + 1 < rawW.length → (outW.test_range.getD (0 + 1) (0, 0)).1 =
        (outW.test_range.getD 0 (0, 0)).2) :=
  spec_c2 rawW 1 uW outW 0 (by norm_num) (le_refl 1) (by decide) (by decide)

/-- C5: for every successful run of process_edges, the label sequence of
each split is exactly as long as the corresponding flat edge tensor, and
the labels inside the range-table segment of type k all equal k, the
segment holding 2 times the number of original columns the mask assigned
to the split. -/
theorem spec_c5 (raw : List (List Edge)) (p : ℚ) (u : ℕ → ℕ → ℚ)
    (out : SplitOut) (k : ℕ) (h0 : 0 ≤ p) (h1 : p ≤ 1)
    (hok : process_edges raw p u = Except.ok out) (hk : k < raw.length) :
    out.train_et.length = out.train_edge_idx.length ∧
      out.test_et.length = out.test_edge_idx.length ∧
      listSeg out.train_et (out.train_range.getD k (0, 0)) =
        List.replicate
          (2 * (trainSet (npMask p u k (raw.getD k []).length)).length) k ∧
      listSeg out.test_et (out.test_range.getD k (0, 0)) =
        List.replicate
          (2 * (testSet (npMask p u k (raw.getD k []).length)).length) k := by
  have hraw : raw ≠ [] := by
    intro hnil
    rw [hnil] at hk
    simp at hk
  rw [process_edges_ok h0 h1 u raw hraw] at hok
  have hout := Except.ok.inj hok
  subst hout
  have hm : ∀ i n, (npMask p u i n).length = n := npMask_length p u
  exact ⟨assemble_train_lengths hm raw, assemble_test_lengths hm raw,
    assemble_train_label_seg hm hk, assemble_test_label_seg hm hk⟩

/-- C5 witness: instantiation at the two-type list rawW, p = 1, the
oracle uW, the output outW and type 0. -/
theorem spec_c5_witness :
    outW.train_et.length = outW.train_edge_idx.length ∧
      outW.test_et.length = outW.test_edge_idx.length ∧
      listSeg outW.train_et (outW.train_range.getD 0 (0, 0)) =
        List.replicate
          (2 * (trainSet (npMask 1 uW 0 (rawW.getD 0 []).length)).length) 0 ∧
      listSeg outW.test_et (outW.test_range.getD 0 (0, 0)) =
        List.replicate
          (2 * (testSet (npMask 1 uW 0 (rawW.getD 0 []).length)).length) 0 :=
  spec_c5 rawW 1 uW outW 0 (by norm_num) (le_refl 1) (by decide) (by decide)

/-- C9: for every successful run of process_edges, the range-table
segment of type k in each flat tensor is the selected columns of type k,
taken at ascending original column positions, followed by the same
columns with endpoints swapped in the same order. -/
theorem spec_c9 (raw : List (List Edge)) (p : ℚ) (u : ℕ → ℕ → ℚ)
    (out : SplitOut) (k : ℕ) (h0 : 0 ≤ p) (h1 : p ≤ 1)
    (hok : process_edges raw p u = Except.ok out) (hk : k < raw.length) :
    listSeg out.train_edge_idx (out.train_range.getD k (0, 0)) =
        select (raw.getD k [])
            (trainSet (npMask p u k (raw.getD k []).length)) ++
          (select (raw.getD k [])
            (trainSet (npMask p u k (raw.getD k []).length))).map swapEdge ∧
      List.Sorted (· < ·) (trainSet (npMask p u k (raw.getD k []).length)) ∧
      listSeg out.test_edge_idx (out.test_range.getD k (0, 0)) =
        select (raw.getD k [])
            (testSet (npMask p u k (raw.getD k []).length)) ++
          (select (raw.getD k [])
            (testSet (npMask p u k (raw.getD k []).length))).map swapEdge ∧
      List.Sorted (· < ·) (testSet (npMask p u k (raw.getD k []).length)) := by
  have hraw : raw ≠ [] := by
    intro hnil
    rw [hnil] at hk
    simp at hk
  rw [process_edges_ok h0 h1 u raw hraw] at hok
  have hout := Except.ok.inj hok
  subst hout
  exact ⟨assemble_train_seg (npMask p u) hk, idxFilter_sorted _ _ 0,
    assemble_test_seg (npMask p u) hk, idxFilter_sorted _ _ 0⟩

/-- C9 witness: instantiation at the two-type list rawW, p = 1, the
oracle uW, the output outW and type 0. -/
theorem spec_c9_witness :
    listSeg outW.train_edge_idx (outW.train_range.getD 0 (0, 0)) =
        select (rawW.getD 0 [])
            (trainSet (npMask 1 uW 0 (rawW.getD 0 []).length)) ++
          (select (rawW.getD 0 [])
            (trainSet (npMask 1 uW 0 (rawW.getD 0 []).length))).map swapEdge ∧
      List.Sorted (· < ·) (trainSet (npMask 1 uW 0 (rawW.getD 0 []).length)) ∧
      listSeg outW.test_edge_idx (outW.test_range.getD 0 (0, 0)) =
        select (rawW.getD 0 [])
            (testSet (npMask 1 uW 0 (rawW.getD 0 []).length)) ++
          (select (rawW.getD 0 [])
            (testSet (npMask 1 uW 0 (rawW.getD 0 []).length))).map swapEdge ∧
      List.Sorted (· < ·) (testSet (npMask 1 uW 0 (rawW.getD 0 []).length)) :=
  spec_c9 rawW 1 uW outW 0 (by norm_num) (le_refl 1) (by decide) (by decide)

end PoSePath
